import Mathlib

/-! Path helper of the MySQL client (`client/path.h`).

A shallow embedding of the `Path` class: a pair of `std::string`s
(`m_path`, `m_filename`) with mutators layered over string operations, and
queries layered over `my_stat` / `opendir` / `readdir`.

* A `std::string` is a `List Char`.
* An iterator into a string is the (signed) index it points at.
* `size_t` results that may be `std::string::npos` are `Option Nat`
  (`none` is `npos`).
* Dereferencing an iterator that is outside the string is undefined behaviour
  in C++; the embedding makes it an explicit outcome, `Exec.outOfBounds`.
  The definitions named `…Mem` follow such a run further, with the byte that
  the read finds as a parameter.
* The file system is an explicit oracle, `Env`.
-/

namespace MysqlClient

/-! ## Outcomes -/

/-- Outcome of running a piece of the class: a value, a dereference of an
iterator outside the string it walks (`it` is the index, `size` the length of
the string at that moment), or exhaustion of the loop budget of the model. -/
inductive Exec (α : Type) where
  | ok (a : α)
  | outOfBounds (it : Int) (size : Nat)
  | outOfFuel
  deriving DecidableEq, Repr

namespace Exec

/-- Apply a function to the value of a completed run. -/
def map {α β : Type} (f : α → β) : Exec α → Exec β
  | ok a => ok (f a)
  | outOfBounds it size => outOfBounds it size
  | outOfFuel => outOfFuel

/-- Sequence two runs: the second one starts from the value of the first. -/
def bind {α β : Type} (x : Exec α) (f : α → Exec β) : Exec β :=
  match x with
  | ok a => f a
  | outOfBounds it size => outOfBounds it size
  | outOfFuel => outOfFuel

/-- The run completed with a value. -/
def isOk {α : Type} : Exec α → Bool
  | ok _ => true
  | _ => false

end Exec

/-! ## The pieces of `std::string` the class uses -/

/-- Macro `#define PATH_SEPARATOR_C '/'`. -/
def PATH_SEPARATOR_C : Char := '/'

/-- Macro `#define PATH_SEPARATOR "/"`. -/
def PATH_SEPARATOR : List Char := [PATH_SEPARATOR_C]

/-- Member `s.find(PATH_SEPARATOR)` for the one-character separator: index of the
first occurrence of `c`, `none` for `npos`. -/
def find (c : Char) : List Char → Option Nat
  | [] => none
  | x :: xs =>
    if x = c then some 0
    else
      match find c xs with
      | some i => some (i + 1)
      | none => none

/-- Member `s.rfind(PATH_SEPARATOR)` for the one-character separator: index of the
last occurrence of `c`, `none` for `npos`. -/
def rfind (c : Char) : List Char → Option Nat
  | [] => none
  | x :: xs =>
    match rfind c xs with
    | some i => some (i + 1)
    | none => if x = c then some 0 else none

/-- Member `s.substr(pos, n)` for `pos ≤ s.size()` (every call of the class is so):
at most `n` characters from index `pos` on; `n = none` is `npos`, the rest of
the string. -/
def substr (s : List Char) (pos : Nat) (n : Option Nat) : List Char :=
  match n with
  | some k => (s.drop pos).take k
  | none => s.drop pos

/-- Access `s[0]`: the first character, and the terminating NUL of an empty string. -/
def charAt0 (s : List Char) : Char :=
  s.headD (Char.ofNat 0)

/-! ## The class -/

/-- The two private members of `class Path`. -/
structure Path where
  m_path : List Char
  m_filename : List Char
  deriving DecidableEq, Repr

/-- The loop of `trim()`:
`while ((*it) == PATH_SEPARATOR_C) { m_path.erase(it--); }`
on the string `s` with the iterator at index `it`. Each round first evaluates
`*it`, which is only defined for `0 ≤ it < s.size()`. -/
def trimLoop : Nat → List Char → Int → Exec (List Char)
  | 0, _, _ => Exec.outOfFuel
  | fuel + 1, s, it =>
    if 0 ≤ it ∧ it < (s.length : Int) then
      if s[it.toNat]? = some PATH_SEPARATOR_C then
        trimLoop fuel (s.eraseIdx it.toNat) (it - 1)
      else Exec.ok s
    else Exec.outOfBounds it s.length

/-- The body of `trim()` on the member `m_path`: nothing for a length of at
most 1, else the loop started at `--m_path.end()`. -/
def trimStr (s : List Char) : Exec (List Char) :=
  if s.length ≤ 1 then Exec.ok s
  else trimLoop (s.length + 1) s ((s.length : Int) - 1)

namespace Path

/-- Constructor `Path()`. -/
def mk0 : Path := { m_path := [], m_filename := [] }

/-- Method `void trim()`: only `m_path` is touched. -/
def trim (p : Path) : Exec Path :=
  (trimStr p.m_path).map (fun d => { p with m_path := d })

/-- Method `void path(const std::string &p)`: clear, append, trim. -/
def path (self : Path) (p : List Char) : Exec Path :=
  trim { self with m_path := [] ++ p }

/-- Method `void filename(const std::string &f)`. -/
def filename (self : Path) (f : List Char) : Path :=
  { self with m_filename := f }

/-- Method `void path(const Path &p)`, which is `path(p.m_path)`, for an
argument `p` that is another object. -/
def pathOf (self : Path) (p : Path) : Exec Path :=
  self.path p.m_path

/-- Method `void path(const Path &p)` called with the object itself: the
argument of `path(const std::string &)` is then a reference to `m_path`,
which `m_path.clear()` empties before `m_path.append(p)` reads it. -/
def pathSelf (self : Path) : Exec Path :=
  trim { self with m_path := [] ++ [] }

/-- Method `void filename(const Path &p)`, which is `path(p.m_filename)`. -/
def filenameOf (self : Path) (p : Path) : Exec Path :=
  self.path p.m_filename

/-- Constructor `Path(const std::string &s)`: empty filename, then `path(s)`. -/
def ofString (s : List Char) : Exec Path :=
  path { m_path := [], m_filename := [] } s

/-- Constructor `Path(const Path &p)`. -/
def copy (p : Path) : Path :=
  { m_filename := p.m_filename, m_path := p.m_path }

/-- Method `bool validate_filename()`. -/
def validate_filename (self : Path) : Bool :=
  match find PATH_SEPARATOR_C self.m_filename with
  | some _ => false
  | none => true

/-- Method `void parent_directory(Path *out)`: the new value of `*out`. The
`npos` branch has no `return`, so the second `out->path` always runs. -/
def parent_directory (self : Path) (out : Path) : Exec Path :=
  let idx := rfind PATH_SEPARATOR_C self.m_path
  let out1 : Exec Path :=
    match idx with
    | none => out.path []
    | some _ => Exec.ok out
  out1.bind (fun o => o.path (substr self.m_path 0 idx))

/-- Method `Path &up()`: the `npos` branch clears `m_path`, then the assignment of
`m_path.substr(0, idx)` always runs. -/
def up (self : Path) : Path :=
  let idx := rfind PATH_SEPARATOR_C self.m_path
  let m1 : List Char :=
    match idx with
    | none => []
    | some _ => self.m_path
  { self with m_path := substr m1 0 idx }

/-- Method `Path &append(const std::string &path)`. -/
def append (self : Path) (path : List Char) : Exec Path :=
  let m1 : List Char :=
    if self.m_path.length > 1 ∧ charAt0 path ≠ PATH_SEPARATOR_C then
      self.m_path ++ PATH_SEPARATOR
    else self.m_path
  trim { self with m_path := m1 ++ path }

/-- Method `Path &filename_append(const std::string &ext)`. -/
def filename_append (self : Path) (ext : List Char) : Exec Path :=
  trim { self with m_filename := self.m_filename ++ ext }

/-- Method `bool is_qualified_path()`. -/
def is_qualified_path (self : Path) : Bool :=
  decide (self.m_filename.length > 0)

/-- Method `const std::string to_str()`. -/
def to_str (self : Path) : List Char :=
  if self.m_filename.length ≠ 0 then
    (self.m_path ++ PATH_SEPARATOR) ++ self.m_filename
  else self.m_path

end Path

/-- Operator `std::ostream &operator<<(std::ostream &op, const Path &p)`: the stream
is the text written so far. -/
def streamOut (op : List Char) (p : Path) : List Char :=
  let qpath : List Char :=
    if p.m_filename.length ≠ 0 then
      (p.m_path ++ PATH_SEPARATOR) ++ p.m_filename
    else p.m_path
  op ++ qpath

/-! ## The file system -/

/-- Structure `MY_STAT`: the one field the class reads. -/
structure MY_STAT where
  st_mode : Nat
  deriving DecidableEq, Repr

/-- The operating system as the class sees it. `my_stat` is `none` for a
`NULL` result; `S_ISREG` is the macro of `<sys/stat.h>`; `opendir` is `none`
for a `NULL` stream and otherwise the entries `readdir` will hand out. -/
structure Env where
  my_stat : List Char → Option MY_STAT
  S_ISREG : Nat → Bool
  opendir : List Char → Option (List (List Char))

namespace Path

/-- Method `bool qpath(const std::string &qp)`: the returned flag and the new state. -/
def qpath (env : Env) (self : Path) (qp : List Char) : Exec (Bool × Path) :=
  match env.my_stat qp with
  | none => Exec.ok (false, self)
  | some s =>
    if !env.S_ISREG s.st_mode then Exec.ok (false, self)
    else
      match rfind PATH_SEPARATOR_C qp with
      | none => Exec.ok (true, { m_filename := qp, m_path := [] })
      | some idx =>
        ((self.filename (substr qp (idx + 1) (some (qp.length - idx)))).path
            (substr qp 0 (some idx))).map (fun p => (true, p))

/-- Method `bool exists()`. -/
def «exists» (env : Env) (self : Path) : Bool :=
  if !self.is_qualified_path then
    match env.opendir self.m_path with
    | none => false
    | some _ => true
  else
    match env.my_stat ((self.m_path ++ PATH_SEPARATOR) ++ self.m_filename) with
    | none => false
    | some _ => true

end Path

/-- Call `readdir(dir)`: the next entry and the rest of the stream, `none` at its end. -/
def readdir (dir : List (List Char)) : Option (List Char) × List (List Char) :=
  match dir with
  | [] => (none, [])
  | e :: rest => (some e, rest)

/-- The read loop of `empty()`:
`while (ent != NULL && c < 4) { ent= readdir(dir); ++c; }`; the value is the
final `c`, `none` when the budget of the model runs out. -/
def emptyLoop : Nat → Option (List Char) → List (List Char) → Nat → Option Nat
  | 0, _, _, _ => none
  | fuel + 1, ent, dir, c =>
    if ent ≠ none ∧ c < 4 then
      emptyLoop fuel (readdir dir).1 (readdir dir).2 (c + 1)
    else some c

namespace Path

/-- Method `bool empty()`; `none` when the budget of the model runs out. -/
def empty (env : Env) (self : Path) : Option Bool :=
  if !self.«exists» env then some true
  else
    match env.opendir self.m_path with
    | none => some false
    | some dir =>
      (emptyLoop 5 (readdir dir).1 (readdir dir).2 0).map (fun c => decide (c = 2))

end Path

/-! ## Runs with the memory around the string made explicit

The loop of `trim()` can read one position before the first character. The
embedding above stops there (`Exec.outOfBounds`). This section follows the
run further: the byte that such a read finds is a parameter, `stray`, and the
loop goes on with it as the source does — it ends when the byte is not the
separator, and is asked to erase outside the string when it is. -/

/-- The loop of `trim()`,
`while ((*it) == PATH_SEPARATOR_C) { m_path.erase(it--); }`, where a read
`*it` outside the string yields the byte `stray`. -/
def trimLoopMem (stray : Char) : Nat → List Char → Int → Exec (List Char)
  | 0, _, _ => Exec.outOfFuel
  | fuel + 1, s, it =>
    if 0 ≤ it ∧ it < (s.length : Int) then
      if s[it.toNat]? = some PATH_SEPARATOR_C then
        trimLoopMem stray fuel (s.eraseIdx it.toNat) (it - 1)
      else Exec.ok s
    else if stray = PATH_SEPARATOR_C then Exec.outOfBounds it s.length
    else Exec.ok s

/-- The body of `trim()` on the member `m_path`, with `trimLoopMem` as its loop. -/
def trimStrMem (stray : Char) (s : List Char) : Exec (List Char) :=
  if s.length ≤ 1 then Exec.ok s
  else trimLoopMem stray (s.length + 1) s ((s.length : Int) - 1)

namespace Path

/-- Method `void trim()` with `trimStrMem` as its body. -/
def trimMem (stray : Char) (p : Path) : Exec Path :=
  (trimStrMem stray p.m_path).map (fun d => { p with m_path := d })

/-- Method `void path(const std::string &p)`: clear, append, `trimMem`. -/
def pathMem (stray : Char) (self : Path) (p : List Char) : Exec Path :=
  trimMem stray { self with m_path := [] ++ p }

/-- Method `bool qpath(const std::string &qp)` over `pathMem`: the returned
flag and the new state. -/
def qpathMem (stray : Char) (env : Env) (self : Path) (qp : List Char) :
    Exec (Bool × Path) :=
  match env.my_stat qp with
  | none => Exec.ok (false, self)
  | some s =>
    if !env.S_ISREG s.st_mode then Exec.ok (false, self)
    else
      match rfind PATH_SEPARATOR_C qp with
      | none => Exec.ok (true, { m_filename := qp, m_path := [] })
      | some idx =>
        ((self.filename (substr qp (idx + 1) (some (qp.length - idx)))).pathMem stray
            (substr qp 0 (some idx))).map (fun p => (true, p))

end Path

/-! ## The mutators the directory invariant speaks of -/

/-- A call of one of the mutating operations: construction from a string,
`path(string)`, `path(Path)`, `filename(Path)`, `append`, `filename_append`,
`up`. -/
inductive Mutation where
  | ofString (s : List Char)
  | path (s : List Char)
  | pathOf (q : Path)
  | pathSelf
  | filenameOf (q : Path)
  | append (s : List Char)
  | filename_append (e : List Char)
  | up
  deriving DecidableEq, Repr

/-- Run a mutation on the object `p` (construction replaces the object). -/
def Mutation.run (p : Path) : Mutation → Exec Path
  | Mutation.ofString s => Path.ofString s
  | Mutation.path s => p.path s
  | Mutation.pathOf q => p.pathOf q
  | Mutation.pathSelf => p.pathSelf
  | Mutation.filenameOf q => p.filenameOf q
  | Mutation.append s => p.append s
  | Mutation.filename_append e => p.filename_append e
  | Mutation.up => Exec.ok p.up

/-! ## A file system for concrete checks -/

/-- Macro `S_ISREG(m)` of `<sys/stat.h>`: `(m & S_IFMT) == S_IFREG`. -/
def S_ISREG (m : Nat) : Bool :=
  Nat.land m 0o170000 == 0o100000

/-- A file system in which exactly the listed paths are regular files (mode
`0100644`) and no directory can be opened. -/
def envOfFiles (files : List (List Char)) : Env :=
  { my_stat := fun s => if s ∈ files then some { st_mode := 0o100644 } else none
    S_ISREG := S_ISREG
    opendir := fun _ => none }

/-- A file system with no files in which exactly the directory `dir` can be
opened, its stream handing out `entries`. -/
def envOfDir (dir : List Char) (entries : List (List Char)) : Env :=
  { my_stat := fun _ => none
    S_ISREG := S_ISREG
    opendir := fun s => if s = dir then some entries else none }

/-! ## Vocabulary of the specification -/

/-- The specification's "d with all of its trailing separators removed". -/
def stripTrailing (d : List Char) : List Char :=
  d.rdropWhile (fun c => c == PATH_SEPARATOR_C)

/-- The specification's "trimmed d": trailing separators removed, a string of
length at most 1 left as it is. -/
def trimmed (d : List Char) : List Char :=
  if d.length ≤ 1 then d else stripTrailing d

/-- The specification's invariant of the directory: no trailing separator
unless the length is exactly 1. -/
def DirInv (d : List Char) : Prop :=
  d.getLast? = some PATH_SEPARATOR_C → d.length = 1

instance (d : List Char) : Decidable (DirInv d) := by
  unfold DirInv; infer_instance

/-- A string of two or more characters, all of them separators. -/
def AllSeparators (d : List Char) : Prop :=
  2 ≤ d.length ∧ ∀ c ∈ d, c = PATH_SEPARATOR_C

instance (d : List Char) : Decidable (AllSeparators d) := by
  unfold AllSeparators; infer_instance


/-! ## The trimming loop -/

theorem stripTrailing_concat (xs : List Char) (c : Char) :
    stripTrailing (xs ++ [c]) =
      if c = PATH_SEPARATOR_C then stripTrailing xs else xs ++ [c] := by
  unfold stripTrailing
  rw [List.rdropWhile_concat]
  by_cases h : c = PATH_SEPARATOR_C <;> simp [h]

theorem trimLoop_last (xs : List Char) :
    ∀ fuel : Nat, xs.length + 1 ≤ fuel →
      trimLoop fuel xs ((xs.length : Int) - 1) =
        if ∀ c ∈ xs, c = PATH_SEPARATOR_C then Exec.outOfBounds (-1) 0
        else Exec.ok (stripTrailing xs) := by
  induction xs using List.reverseRecOn with
  | nil =>
    intro fuel hf
    obtain ⟨f, rfl⟩ : ∃ f, fuel = f + 1 := ⟨fuel - 1, by simp at hf; omega⟩
    simp [trimLoop]
  | append_singleton xs c ih =>
    intro fuel hf
    obtain ⟨f, rfl⟩ : ∃ f, fuel = f + 1 := ⟨fuel - 1, by omega⟩
    have hlen : (xs ++ [c]).length = xs.length + 1 := by simp
    have hit : (((xs ++ [c]).length : Int) - 1) = (xs.length : Int) := by
      rw [hlen]; push_cast; ring
    rw [hit]
    unfold trimLoop
    have hb : (0 : Int) ≤ (xs.length : Int) ∧ (xs.length : Int) < ((xs ++ [c]).length : Int) := by
      rw [hlen]; constructor <;> omega
    rw [if_pos hb]
    have hget : (xs ++ [c])[(xs.length : Int).toNat]? = some c := by
      simp
    rw [hget]
    by_cases hc : c = PATH_SEPARATOR_C
    · have herase : (xs ++ [c]).eraseIdx (xs.length : Int).toNat = xs := by
        simp [List.eraseIdx_append_of_length_le]
      rw [if_pos (by rw [hc]), herase, ih f (by simp at hf; omega), stripTrailing_concat, if_pos hc]
      have hall : (∀ x ∈ xs ++ [c], x = PATH_SEPARATOR_C) ↔ (∀ x ∈ xs, x = PATH_SEPARATOR_C) := by
        constructor
        · intro h x hx
          exact h x (List.mem_append_left _ hx)
        · intro h x hx
          rcases List.mem_append.mp hx with hx | hx
          · exact h x hx
          · rw [List.mem_singleton.mp hx, hc]
      simp only [hall]
    · have hne : ¬ (some c = some PATH_SEPARATOR_C) := by simpa using hc
      rw [if_neg hne, stripTrailing_concat, if_neg hc]
      have hall : ¬ (∀ x ∈ xs ++ [c], x = PATH_SEPARATOR_C) := by
        intro h; exact hc (h c (by simp))
      rw [if_neg hall]

theorem trimStr_eq (s : List Char) :
    trimStr s =
      if AllSeparators s then Exec.outOfBounds (-1) 0 else Exec.ok (trimmed s) := by
  unfold trimStr trimmed AllSeparators
  by_cases h1 : s.length ≤ 1
  · have : ¬ (2 ≤ s.length ∧ ∀ c ∈ s, c = PATH_SEPARATOR_C) := by omega
    rw [if_pos h1, if_neg this, if_pos h1]
  · rw [if_neg h1, trimLoop_last s _ le_rfl, if_neg h1]
    by_cases h2 : ∀ c ∈ s, c = PATH_SEPARATOR_C
    · rw [if_pos h2, if_pos ⟨by omega, h2⟩]
    · rw [if_neg h2, if_neg (fun h => h2 h.2)]

/-- The loop budget of `trimStr` is never exhausted. -/
theorem trimStr_ne_outOfFuel (s : List Char) : trimStr s ≠ Exec.outOfFuel := by
  rw [trimStr_eq]
  split <;> simp

theorem trim_eq (p : Path) :
    Path.trim p =
      if AllSeparators p.m_path then Exec.outOfBounds (-1) 0
      else Exec.ok { m_path := trimmed p.m_path, m_filename := p.m_filename } := by
  unfold Path.trim
  rw [trimStr_eq]
  by_cases h : AllSeparators p.m_path
  · rw [if_pos h, if_pos h]; rfl
  · rw [if_neg h, if_neg h]; rfl

theorem stripTrailing_dirInv (d : List Char) : DirInv (stripTrailing d) := by
  intro h
  exfalso
  have hne : stripTrailing d ≠ [] := by
    intro h0; rw [h0] at h; simp at h
  have hlast := List.rdropWhile_last_not (fun c => c == PATH_SEPARATOR_C) d hne
  rw [List.getLast?_eq_getLast _ hne] at h
  have h2 : (stripTrailing d).getLast hne = PATH_SEPARATOR_C := Option.some.inj h
  apply hlast
  simp only [stripTrailing] at h2
  simp [h2]

theorem trimmed_dirInv (d : List Char) : DirInv (trimmed d) := by
  unfold trimmed
  by_cases h1 : d.length ≤ 1
  · rw [if_pos h1]
    intro h
    cases d with
    | nil => simp at h
    | cons x xs =>
      simp only [List.length_cons] at h1 ⊢
      omega
  · rw [if_neg h1]; exact stripTrailing_dirInv d

/-! ## `rfind` -/

theorem rfind_eq_none_iff (c : Char) (s : List Char) : rfind c s = none ↔ c ∉ s := by
  induction s with
  | nil => simp [rfind]
  | cons x xs ih =>
    unfold rfind
    cases hr : rfind c xs with
    | some i =>
      have : c ∈ xs := by
        by_contra hc
        rw [ih.mpr hc] at hr
        cases hr
      simp [this]
    | none =>
      have hx : c ∉ xs := ih.mp hr
      by_cases hxc : x = c
      · simp [hxc]
      · have : ¬ c = x := fun h => hxc h.symm
        simp [hxc, hx, this]

theorem rfind_append_cons (c : Char) (pre suf : List Char) (h : c ∉ suf) :
    rfind c (pre ++ c :: suf) = some pre.length := by
  induction pre with
  | nil =>
    have := (rfind_eq_none_iff c suf).mpr h
    simp [rfind, this]
  | cons x xs ih =>
    have e : rfind c (x :: (xs ++ c :: suf)) = some (xs.length + 1) := by
      rw [rfind, ih]
    simpa using e

theorem rfind_eq_some (c : Char) (s : List Char) (i : Nat) (h : rfind c s = some i) :
    ∃ pre suf, s = pre ++ c :: suf ∧ c ∉ suf ∧ i = pre.length := by
  induction s generalizing i with
  | nil => simp [rfind] at h
  | cons x xs ih =>
    unfold rfind at h
    cases hr : rfind c xs with
    | some j =>
      rw [hr] at h
      obtain ⟨pre, suf, hs, hsuf, hj⟩ := ih j hr
      refine ⟨x :: pre, suf, by rw [hs]; rfl, hsuf, ?_⟩
      simp at h
      simp [← h, hj]
    | none =>
      rw [hr] at h
      by_cases hxc : x = c
      · simp [hxc] at h
        exact ⟨[], xs, by simp [hxc], (rfind_eq_none_iff c xs).mp hr, by simp [← h]⟩
      · simp [hxc] at h

theorem mem_split_last (c : Char) (s : List Char) (h : c ∈ s) :
    ∃ pre suf, s = pre ++ c :: suf ∧ c ∉ suf := by
  cases hr : rfind c s with
  | none => exact absurd h ((rfind_eq_none_iff c s).mp hr)
  | some i =>
    obtain ⟨pre, suf, hs, hsuf, _⟩ := rfind_eq_some c s i hr
    exact ⟨pre, suf, hs, hsuf⟩

/-- The part before the last occurrence is determined by the string. -/
theorem split_last_unique (c : Char) (pre suf pre2 suf2 : List Char)
    (h : pre ++ c :: suf = pre2 ++ c :: suf2) (h1 : c ∉ suf) (h2 : c ∉ suf2) :
    pre = pre2 ∧ suf = suf2 := by
  have e1 := rfind_append_cons c pre suf h1
  have e2 := rfind_append_cons c pre2 suf2 h2
  rw [h, e2] at e1
  have hl : pre2.length = pre.length := Option.some.inj e1
  have := List.append_inj h hl.symm
  exact ⟨this.1, by simpa using this.2⟩

theorem up_append_cons (pre suf f : List Char) (h : PATH_SEPARATOR_C ∉ suf) :
    Path.up { m_path := pre ++ PATH_SEPARATOR_C :: suf, m_filename := f } =
      { m_path := pre, m_filename := f } := by
  simp [Path.up, rfind_append_cons _ _ _ h, substr]

theorem up_no_separator (d f : List Char) (h : PATH_SEPARATOR_C ∉ d) :
    Path.up { m_path := d, m_filename := f } = { m_path := [], m_filename := f } := by
  simp [Path.up, (rfind_eq_none_iff _ _).mpr h, substr]


theorem not_allSeparators_of_not_mem (d : List Char) (h : PATH_SEPARATOR_C ∉ d) :
    ¬ AllSeparators d := by
  intro ⟨hlen, hall⟩
  cases d with
  | nil => simp at hlen
  | cons x xs =>
    apply h
    rw [← hall x (List.mem_cons_self x xs)]
    exact List.mem_cons_self x xs

theorem trimmed_of_not_mem (d : List Char) (h : PATH_SEPARATOR_C ∉ d) : trimmed d = d := by
  unfold trimmed
  by_cases h1 : d.length ≤ 1
  · rw [if_pos h1]
  · rw [if_neg h1]
    unfold stripTrailing
    rw [List.rdropWhile_eq_self_iff]
    intro hl hp
    apply h
    have hmem : d.getLast hl ∈ d := List.getLast_mem hl
    have : d.getLast hl = PATH_SEPARATOR_C := by simpa using hp
    rw [← this]
    exact hmem

theorem path_eq (self : Path) (s : List Char) :
    self.path s =
      if AllSeparators s then Exec.outOfBounds (-1) 0
      else Exec.ok { m_path := trimmed s, m_filename := self.m_filename } := by
  unfold Path.path
  rw [trim_eq]
  simp

theorem parent_directory_no_separator (d f : List Char) (out : Path)
    (h : PATH_SEPARATOR_C ∉ d) :
    Path.parent_directory { m_path := d, m_filename := f } out =
      Exec.ok { m_path := d, m_filename := out.m_filename } := by
  have hr := (rfind_eq_none_iff _ _).mpr h
  have hnil : ¬ AllSeparators ([] : List Char) := by decide
  simp only [Path.parent_directory, hr, path_eq, if_neg hnil, Exec.bind, substr, List.drop_zero,
    if_neg (not_allSeparators_of_not_mem d h), trimmed_of_not_mem d h]

theorem up_dirInv (d f : List Char) (h : ¬ (['/', '/'] <:+: d)) :
    DirInv (Path.up { m_path := d, m_filename := f }).m_path := by
  by_cases hmem : PATH_SEPARATOR_C ∈ d
  · obtain ⟨pre, suf, hd, hsuf⟩ := mem_split_last _ d hmem
    rw [hd, up_append_cons pre suf f hsuf]
    intro hlast
    exfalso
    apply h
    have hne : pre ≠ [] := by
      intro h0; rw [h0] at hlast; simp at hlast
    rw [List.getLast?_eq_getLast _ hne] at hlast
    have hl : pre.getLast hne = PATH_SEPARATOR_C := Option.some.inj hlast
    have hpre : pre = pre.dropLast ++ [PATH_SEPARATOR_C] := by
      rw [← hl]; exact (List.dropLast_append_getLast hne).symm
    refine ⟨pre.dropLast, suf, ?_⟩
    rw [hd]
    nth_rewrite 2 [hpre]
    simp [PATH_SEPARATOR_C]
  · rw [up_no_separator d f hmem]
    intro hlast
    simp at hlast

/-! ## Claims -/

/-- C2 (counterexample). The state `"a//b"` is reached by construction from a
string, and `up()` takes it to `"a/"`, which ends in a separator and has
length 2. -/
theorem up_leaves_trailing_separator :
    Path.ofString "a//b".toList = Exec.ok { m_path := "a//b".toList, m_filename := [] } ∧
    Mutation.run { m_path := "a//b".toList, m_filename := [] } Mutation.up =
      Exec.ok { m_path := "a/".toList, m_filename := [] } ∧
    ¬ DirInv "a/".toList := by
  decide

/-- C2 (amended). After each of the mutations — construction from a string,
`path(string)`, `path(Path)`, `filename(Path)`, `append`, `filename_append`,
and `up()` when the old directory has no two adjacent separators — from any
state and with any argument, either the call completes and the directory does
not end in the separator unless its length is exactly 1, or `trim()`
dereferenced its iterator at index -1. -/
theorem dirInv_after_mutation (p : Path) (m : Mutation)
    (hup : m = Mutation.up → ¬ (['/', '/'] <:+: p.m_path)) :
    (∃ p', m.run p = Exec.ok p' ∧ DirInv p'.m_path) ∨
      m.run p = Exec.outOfBounds (-1) 0 := by
  have key : ∀ q : Path,
      (∃ p', Path.trim q = Exec.ok p' ∧ DirInv p'.m_path) ∨
        Path.trim q = Exec.outOfBounds (-1) 0 := by
    intro q
    rw [trim_eq]
    by_cases h : AllSeparators q.m_path
    · right; rw [if_pos h]
    · left; rw [if_neg h]; exact ⟨_, rfl, trimmed_dirInv _⟩
  cases m with
  | ofString s => exact key _
  | path s => exact key _
  | pathOf q => exact key _
  | pathSelf => exact key { p with m_path := [] ++ [] }
  | filenameOf q => exact key _
  | append s => exact key _
  | filename_append e => exact key _
  | up => exact Or.inl ⟨p.up, rfl, up_dirInv p.m_path p.m_filename (hup rfl)⟩

/-- C2 (witness). The calls `append("lib/")` on `"/var"` and `up()` on
`"/var/lib"`. -/
theorem dirInv_after_mutation_witness :
    ((∃ p', (Mutation.append "lib/".toList).run { m_path := "/var".toList, m_filename := [] } =
        Exec.ok p' ∧ DirInv p'.m_path) ∨
      (Mutation.append "lib/".toList).run { m_path := "/var".toList, m_filename := [] } =
        Exec.outOfBounds (-1) 0) ∧
    ((∃ p', Mutation.up.run { m_path := "/var/lib".toList, m_filename := [] } =
        Exec.ok p' ∧ DirInv p'.m_path) ∨
      Mutation.up.run { m_path := "/var/lib".toList, m_filename := [] } =
        Exec.outOfBounds (-1) 0) :=
  ⟨dirInv_after_mutation { m_path := "/var".toList, m_filename := [] }
      (Mutation.append "lib/".toList) (by decide),
    dirInv_after_mutation { m_path := "/var/lib".toList, m_filename := [] }
      Mutation.up (fun _ => by decide)⟩

/-- C3 (defect). On the directory `"//"` the loop of `trim()` evaluates `*it`
with the iterator at index -1 of a string that has become empty; and the
loop steps before the first character exactly on the strings made of two or
more separators only. -/
theorem trimLoop_steps_before_begin :
    trimLoop 3 "//".toList 1 = Exec.outOfBounds (-1) 0 ∧
    ∀ s : List Char, trimStr s = Exec.outOfBounds (-1) 0 ↔ AllSeparators s := by
  refine ⟨by decide, ?_⟩
  intro s
  rw [trimStr_eq]
  by_cases h : AllSeparators s
  · simp [h]
  · simp [h]

/-- C4. `up()` sets the directory to the part before the last separator when
there is one and to the empty string when there is none, and keeps the
filename; `"/var/lib/data"` goes to `"/var/lib"`, that to `"/var"`, that to
`""`. -/
theorem up_spec (d f : List Char) :
    (PATH_SEPARATOR_C ∈ d →
      ∃ pre suf, d = pre ++ PATH_SEPARATOR_C :: suf ∧ PATH_SEPARATOR_C ∉ suf ∧
        Path.up { m_path := d, m_filename := f } = { m_path := pre, m_filename := f }) ∧
    (PATH_SEPARATOR_C ∉ d →
      Path.up { m_path := d, m_filename := f } = { m_path := [], m_filename := f }) ∧
    Path.up { m_path := "/var/lib/data".toList, m_filename := f } =
      { m_path := "/var/lib".toList, m_filename := f } ∧
    Path.up { m_path := "/var/lib".toList, m_filename := f } =
      { m_path := "/var".toList, m_filename := f } ∧
    Path.up { m_path := "/var".toList, m_filename := f } =
      { m_path := [], m_filename := f } := by
  refine ⟨?_, up_no_separator d f, ?_, ?_, ?_⟩
  · intro h
    obtain ⟨pre, suf, hd, hsuf⟩ := mem_split_last _ d h
    exact ⟨pre, suf, hd, hsuf, by rw [hd]; exact up_append_cons pre suf f hsuf⟩
  · exact up_append_cons "/var/lib".toList "data".toList f (by decide)
  · exact up_append_cons "/var".toList "lib".toList f (by decide)
  · exact up_append_cons [] "var".toList f (by decide)

/-- C5 (defect). `parent_directory(out)` on the directory `"data"`, which has no
separator, leaves `out` with the directory `"data"`, not the empty string;
and so for every directory without a separator: `out` receives the directory
itself. -/
theorem parent_directory_unseparated :
    Path.parent_directory { m_path := "data".toList, m_filename := [] }
        { m_path := "/tmp".toList, m_filename := [] } =
      Exec.ok { m_path := "data".toList, m_filename := [] } ∧
    ∀ (d f : List Char) (out : Path), PATH_SEPARATOR_C ∉ d →
      Path.parent_directory { m_path := d, m_filename := f } out =
        Exec.ok { m_path := d, m_filename := out.m_filename } := by
  exact ⟨by decide, parent_directory_no_separator⟩


theorem trim_ok (q p' : Path) (h : Path.trim q = Exec.ok p') :
    ¬ AllSeparators q.m_path ∧ p' = { m_path := trimmed q.m_path, m_filename := q.m_filename } := by
  rw [trim_eq] at h
  by_cases ha : AllSeparators q.m_path
  · rw [if_pos ha] at h; cases h
  · rw [if_neg ha] at h
    exact ⟨ha, (Exec.ok.inj h).symm⟩

theorem charAt0_ne_separator (s : List Char) :
    charAt0 s ≠ PATH_SEPARATOR_C ↔ s.head? ≠ some '/' := by
  cases s with
  | nil => simp [charAt0, PATH_SEPARATOR_C]
  | cons x xs => simp [charAt0, PATH_SEPARATOR_C]

theorem append_unfold (d f s : List Char) :
    Path.append { m_path := d, m_filename := f } s =
      Path.trim
        { m_path := if 1 < d.length ∧ s.head? ≠ some '/' then d ++ '/' :: s else d ++ s
          m_filename := f } := by
  unfold Path.append
  by_cases hc : 1 < d.length ∧ s.head? ≠ some '/'
  · have hc2 : d.length > 1 ∧ charAt0 s ≠ PATH_SEPARATOR_C :=
      ⟨hc.1, (charAt0_ne_separator s).mpr hc.2⟩
    rw [if_pos hc, if_pos hc2]
    simp only [PATH_SEPARATOR, PATH_SEPARATOR_C, List.append_assoc, List.singleton_append]
  · have hc2 : ¬ (d.length > 1 ∧ charAt0 s ≠ PATH_SEPARATOR_C) :=
      fun h => hc ⟨h.1, (charAt0_ne_separator s).mp h.2⟩
    rw [if_neg hc, if_neg hc2]

/-- C6. `append(s)` is `trim()` of the directory `d ++ "/" ++ s` when `d` is
longer than 1 and `s` does not start with the separator, and `trim()` of
`d ++ s` otherwise; a completed call leaves the filename as it was. -/
theorem append_eq_trim (d f s : List Char) :
    Path.append { m_path := d, m_filename := f } s =
      Path.trim
        { m_path := if 1 < d.length ∧ s.head? ≠ some '/' then d ++ '/' :: s else d ++ s
          m_filename := f } ∧
    ∀ p', Path.append { m_path := d, m_filename := f } s = Exec.ok p' → p'.m_filename = f := by
  refine ⟨append_unfold d f s, ?_⟩
  intro p' hp
  rw [append_unfold] at hp
  rw [(trim_ok _ _ hp).2]

theorem qpath_of_rejected (env : Env) (self : Path) (qp : List Char)
    (h : env.my_stat qp = none ∨
      ∃ st, env.my_stat qp = some st ∧ env.S_ISREG st.st_mode = false) :
    Path.qpath env self qp = Exec.ok (false, self) := by
  unfold Path.qpath
  rcases h with h | ⟨st, hst, hreg⟩
  · rw [h]
  · rw [hst]
    simp [hreg]

theorem qpath_of_accepted (env : Env) (self : Path) (qp : List Char) (st : MY_STAT)
    (hstat : env.my_stat qp = some st) (hreg : env.S_ISREG st.st_mode = true) :
    Path.qpath env self qp =
      match rfind PATH_SEPARATOR_C qp with
      | none => Exec.ok (true, { m_filename := qp, m_path := [] })
      | some idx =>
        ((self.filename (substr qp (idx + 1) (some (qp.length - idx)))).path
            (substr qp 0 (some idx))).map (fun p => (true, p)) := by
  unfold Path.qpath
  rw [hstat]
  simp [hreg]

theorem qpath_not_false_of_accepted (env : Env) (self : Path) (qp : List Char) (st : MY_STAT)
    (hstat : env.my_stat qp = some st) (hreg : env.S_ISREG st.st_mode = true) (p' : Path) :
    Path.qpath env self qp ≠ Exec.ok (false, p') := by
  rw [qpath_of_accepted env self qp st hstat hreg]
  cases rfind PATH_SEPARATOR_C qp with
  | none => simp
  | some idx =>
    simp only
    cases (self.filename (substr qp (idx + 1) (some (qp.length - idx)))).path
        (substr qp 0 (some idx)) <;> simp [Exec.map]

/-- C9. `qpath(qp)` returns false exactly when `my_stat` fails on `qp` or
reports something that is not a regular file, and a call that returns false
leaves the directory and the filename as they were. -/
theorem qpath_false_iff (env : Env) (self : Path) (qp : List Char) :
    ((∃ p', Path.qpath env self qp = Exec.ok (false, p')) ↔
      (env.my_stat qp = none ∨
        ∃ st, env.my_stat qp = some st ∧ env.S_ISREG st.st_mode = false)) ∧
    ∀ p', Path.qpath env self qp = Exec.ok (false, p') → p' = self := by
  have dich : (env.my_stat qp = none ∨
        ∃ st, env.my_stat qp = some st ∧ env.S_ISREG st.st_mode = false) ∨
      ∃ st, env.my_stat qp = some st ∧ env.S_ISREG st.st_mode = true := by
    cases hs : env.my_stat qp with
    | none => exact Or.inl (Or.inl rfl)
    | some st =>
      cases hr : env.S_ISREG st.st_mode with
      | false => exact Or.inl (Or.inr ⟨st, rfl, hr⟩)
      | true => exact Or.inr ⟨st, rfl, hr⟩
  constructor
  · constructor
    · rintro ⟨p', hp⟩
      rcases dich with h | ⟨st, hst, hreg⟩
      · exact h
      · exact absurd hp (qpath_not_false_of_accepted env self qp st hst hreg p')
    · intro h
      exact ⟨self, qpath_of_rejected env self qp h⟩
  · intro p' hp
    rcases dich with h | ⟨st, hst, hreg⟩
    · rw [qpath_of_rejected env self qp h] at hp
      have := Exec.ok.inj hp
      exact (congrArg Prod.snd this).symm
    · exact absurd hp (qpath_not_false_of_accepted env self qp st hst hreg p')

/-! ## Rendering and queries -/

theorem find_eq_none_iff (c : Char) (s : List Char) : find c s = none ↔ c ∉ s := by
  induction s with
  | nil => simp [find]
  | cons x xs ih =>
    unfold find
    by_cases hxc : x = c
    · simp [hxc]
    · have hcx : ¬ c = x := fun h => hxc h.symm
      rw [if_neg hxc]
      cases hr : find c xs with
      | some i =>
        have : c ∈ xs := by
          by_contra hc
          rw [ih.mpr hc] at hr
          cases hr
        simp [this]
      | none =>
        have hx : c ∉ xs := ih.mp hr
        simp [hcx, hx]

theorem to_str_eq (p : Path) :
    p.to_str = if p.m_filename = [] then p.m_path else p.m_path ++ '/' :: p.m_filename := by
  unfold Path.to_str
  by_cases h : p.m_filename = []
  · simp [h]
  · have hl : p.m_filename.length ≠ 0 := by
      intro h0; exact h (List.length_eq_zero.mp h0)
    rw [if_pos hl, if_neg h]
    simp [PATH_SEPARATOR, PATH_SEPARATOR_C]

theorem emptyLoop_count (dir : List (List Char)) :
    emptyLoop 5 (readdir dir).1 (readdir dir).2 0 = some (min dir.length 4) := by
  rcases dir with _ | ⟨a, _ | ⟨b, _ | ⟨c, _ | ⟨d, rest⟩⟩⟩⟩ <;>
    simp [emptyLoop, readdir]

/-- C11. The text that `operator<<` writes to the stream is `to_str()`: the
directory alone when the filename is empty, and the directory, a separator
and the filename otherwise. -/
theorem streamOut_eq_to_str (op : List Char) (p : Path) :
    streamOut op p = op ++ p.to_str ∧
    p.to_str = (if p.m_filename = [] then p.m_path else p.m_path ++ '/' :: p.m_filename) ∧
    streamOut [] p =
      (if p.m_filename = [] then p.m_path else p.m_path ++ '/' :: p.m_filename) := by
  have h1 : streamOut op p = op ++ p.to_str := rfl
  have h2 : streamOut [] p = [] ++ p.to_str := rfl
  refine ⟨h1, to_str_eq p, ?_⟩
  rw [h2, to_str_eq]
  rfl

/-- C12. `validate_filename()` is true exactly when the filename has no
separator, so it is true for the empty filename; the method reads the
filename only and returns a flag. -/
theorem validate_filename_iff (d f : List Char) :
    (Path.validate_filename { m_path := d, m_filename := f } = true ↔ '/' ∉ f) ∧
    Path.validate_filename { m_path := d, m_filename := [] } = true := by
  have key : ∀ g : List Char,
      Path.validate_filename { m_path := d, m_filename := g } = true ↔ '/' ∉ g := by
    intro g
    unfold Path.validate_filename
    cases hr : find PATH_SEPARATOR_C g with
    | none =>
      have := (find_eq_none_iff _ _).mp hr
      simpa [PATH_SEPARATOR_C] using this
    | some i =>
      have : PATH_SEPARATOR_C ∈ g := by
        by_contra hc
        rw [(find_eq_none_iff _ _).mpr hc] at hr
        cases hr
      simpa [PATH_SEPARATOR_C] using this
  exact ⟨key f, (key []).mpr (by simp)⟩

/-- C13. `empty()` is true when `exists()` is false; when `exists()` is true
and the directory opens on a stream of `n` entries, the loop counts
`min n 4` entries and `empty()` is true exactly when `n = 2`: true for the
two entries `.` and `..`, false for 0, 1, 3 and 5 entries. -/
theorem empty_spec (env : Env) (p : Path) :
    (p.«exists» env = false → p.empty env = some true) ∧
    (∀ dir : List (List Char), p.«exists» env = true → env.opendir p.m_path = some dir →
      emptyLoop 5 (readdir dir).1 (readdir dir).2 0 = some (min dir.length 4) ∧
      p.empty env = some (decide (dir.length = 2))) ∧
    Path.empty (envOfDir "/d".toList [".".toList, "..".toList])
      { m_path := "/d".toList, m_filename := [] } = some true ∧
    Path.empty (envOfDir "/d".toList [])
      { m_path := "/d".toList, m_filename := [] } = some false ∧
    Path.empty (envOfDir "/d".toList [".".toList])
      { m_path := "/d".toList, m_filename := [] } = some false ∧
    Path.empty (envOfDir "/d".toList [".".toList, "..".toList, "a".toList])
      { m_path := "/d".toList, m_filename := [] } = some false ∧
    Path.empty (envOfDir "/d".toList
        [".".toList, "..".toList, "a".toList, "b".toList, "c".toList])
      { m_path := "/d".toList, m_filename := [] } = some false := by
  refine ⟨?_, ?_, by decide, by decide, by decide, by decide, by decide⟩
  · intro h
    simp [Path.empty, h]
  · intro dir h hdir
    refine ⟨emptyLoop_count dir, ?_⟩
    simp only [Path.empty, h, hdir, emptyLoop_count, Option.map]
    have hmin : (min dir.length 4 = 2) ↔ (dir.length = 2) := by omega
    simp [hmin]

/-- C14. With an empty filename `exists()` is true exactly when `opendir`
opens the directory string; with a non-empty filename it is true exactly when
`my_stat` succeeds on the directory, a separator and the filename. The method
returns a flag only. -/
theorem exists_spec (env : Env) (d f : List Char) :
    (f = [] →
      (Path.«exists» env { m_path := d, m_filename := f } = true ↔
        (env.opendir d).isSome = true)) ∧
    (f ≠ [] →
      (Path.«exists» env { m_path := d, m_filename := f } = true ↔
        (env.my_stat (d ++ '/' :: f)).isSome = true)) := by
  constructor
  · intro hf
    subst hf
    simp only [Path.«exists», Path.is_qualified_path]
    cases env.opendir d <;> simp
  · intro hf
    have hl : 0 < f.length := List.length_pos.mpr hf
    have he : (d ++ PATH_SEPARATOR) ++ f = d ++ '/' :: f := by
      simp [PATH_SEPARATOR, PATH_SEPARATOR_C]
    simp only [Path.«exists», Path.is_qualified_path, he]
    cases env.my_stat (d ++ '/' :: f) <;> simp [hl]

/-! ## Trimming twice -/

theorem stripTrailing_getLast_ne (d : List Char) :
    (stripTrailing d).getLast? ≠ some PATH_SEPARATOR_C := by
  intro h
  have hne : stripTrailing d ≠ [] := by
    intro h0; rw [h0] at h; simp at h
  have hlast := List.rdropWhile_last_not (fun c => c == PATH_SEPARATOR_C) d hne
  rw [List.getLast?_eq_getLast _ hne] at h
  have h2 : (stripTrailing d).getLast hne = PATH_SEPARATOR_C := Option.some.inj h
  apply hlast
  simp only [stripTrailing] at h2
  simp [h2]

theorem not_allSeparators_of_getLast_ne (d : List Char)
    (h : d.getLast? ≠ some PATH_SEPARATOR_C) : ¬ AllSeparators d := by
  intro ⟨hlen, hall⟩
  have hne : d ≠ [] := by
    intro h0; rw [h0] at hlen; simp at hlen
  apply h
  rw [List.getLast?_eq_getLast _ hne, hall _ (List.getLast_mem hne)]

theorem trimmed_of_getLast_ne (d : List Char)
    (h : d.getLast? ≠ some PATH_SEPARATOR_C) : trimmed d = d := by
  unfold trimmed
  by_cases h1 : d.length ≤ 1
  · rw [if_pos h1]
  · rw [if_neg h1]
    unfold stripTrailing
    rw [List.rdropWhile_eq_self_iff]
    intro hl hp
    apply h
    have : d.getLast hl = PATH_SEPARATOR_C := by simpa using hp
    rw [List.getLast?_eq_getLast _ hl, this]

theorem trimmed_of_length_le_one (d : List Char) (h : d.length ≤ 1) : trimmed d = d := by
  unfold trimmed
  rw [if_pos h]

theorem not_allSeparators_of_length_le_one (d : List Char) (h : d.length ≤ 1) :
    ¬ AllSeparators d := by
  intro ⟨hlen, _⟩
  omega

theorem trimmed_stable (d : List Char) :
    ¬ AllSeparators (trimmed d) ∧ trimmed (trimmed d) = trimmed d := by
  by_cases h1 : d.length ≤ 1
  · rw [trimmed_of_length_le_one d h1]
    exact ⟨not_allSeparators_of_length_le_one d h1, trimmed_of_length_le_one d h1⟩
  · have e : trimmed d = stripTrailing d := by
      unfold trimmed; rw [if_neg h1]
    rw [e]
    exact ⟨not_allSeparators_of_getLast_ne _ (stripTrailing_getLast_ne d),
      trimmed_of_getLast_ne _ (stripTrailing_getLast_ne d)⟩

theorem trimmed_isInitial (d : List Char) : trimmed d <+: d := by
  unfold trimmed
  by_cases h1 : d.length ≤ 1
  · simp only [if_pos h1]
    exact ⟨[], by simp⟩
  · rw [if_neg h1]
    unfold stripTrailing
    exact List.rdropWhile_prefix _ _

theorem filename_append_eq (d f e : List Char) :
    Path.filename_append { m_path := d, m_filename := f } e =
      if AllSeparators d then Exec.outOfBounds (-1) 0
      else Exec.ok { m_path := trimmed d, m_filename := f ++ e } := by
  unfold Path.filename_append
  rw [trim_eq]

/-- C17. When `trim()` completes within bounds, a second `trim()` completes
too and changes nothing, and the trimmed directory is an initial segment of
the directory before the call. -/
theorem trim_idempotent (p p' : Path) (h : p.trim = Exec.ok p') :
    p'.trim = Exec.ok p' ∧ p'.m_path <+: p.m_path := by
  obtain ⟨_, hp'⟩ := trim_ok p p' h
  subst hp'
  constructor
  · rw [trim_eq]
    simp only
    rw [if_neg (trimmed_stable p.m_path).1, (trimmed_stable p.m_path).2]
  · exact trimmed_isInitial p.m_path

/-- C17 (witness). The directory `"/var/lib//"` is trimmed to `"/var/lib"`. -/
theorem trim_idempotent_witness :
    Path.trim { m_path := "/var/lib".toList, m_filename := "f".toList } =
        Exec.ok { m_path := "/var/lib".toList, m_filename := "f".toList } ∧
      "/var/lib".toList <+: "/var/lib//".toList :=
  trim_idempotent { m_path := "/var/lib//".toList, m_filename := "f".toList }
    { m_path := "/var/lib".toList, m_filename := "f".toList } (by decide)

/-! ## `qpath` followed by the queries -/

theorem qpath_split_eq (env : Env) (self : Path) (pre suf : List Char) (st : MY_STAT)
    (hstat : env.my_stat (pre ++ '/' :: suf) = some st)
    (hreg : env.S_ISREG st.st_mode = true) (hsuf : '/' ∉ suf) :
    Path.qpath env self (pre ++ '/' :: suf) =
      if AllSeparators pre then Exec.outOfBounds (-1) 0
      else Exec.ok (true, { m_path := trimmed pre, m_filename := suf }) := by
  rw [qpath_of_accepted env self _ st hstat hreg]
  have hr : rfind PATH_SEPARATOR_C (pre ++ '/' :: suf) = some pre.length :=
    rfind_append_cons _ pre suf hsuf
  rw [hr]
  have h1 : substr (pre ++ '/' :: suf) 0 (some pre.length) = pre := by
    simp [substr]
  have h2 : substr (pre ++ '/' :: suf) (pre.length + 1)
      (some ((pre ++ '/' :: suf).length - pre.length)) = suf := by
    have hd : List.drop (pre.length + 1) (pre ++ '/' :: suf) = suf := by
      rw [List.drop_append_eq_append_drop]
      simp
    simp only [substr, hd]
    apply List.take_of_length_le
    simp
  simp only [h1, h2, path_eq, Path.filename]
  by_cases ha : AllSeparators pre
  · rw [if_pos ha, if_pos ha]; rfl
  · rw [if_neg ha, if_neg ha]; rfl

theorem qpath_unseparated_eq (env : Env) (self : Path) (qp : List Char) (st : MY_STAT)
    (hstat : env.my_stat qp = some st) (hreg : env.S_ISREG st.st_mode = true)
    (hno : '/' ∉ qp) :
    Path.qpath env self qp = Exec.ok (true, { m_path := [], m_filename := qp }) := by
  rw [qpath_of_accepted env self qp st hstat hreg]
  have hr : rfind PATH_SEPARATOR_C qp = none := (rfind_eq_none_iff _ _).mpr hno
  rw [hr]

theorem trimStr_fixed (d : List Char) (h : trimStr d = Exec.ok d) :
    ¬ AllSeparators d ∧ trimmed d = d := by
  rw [trimStr_eq] at h
  by_cases ha : AllSeparators d
  · rw [if_pos ha] at h; cases h
  · rw [if_neg ha] at h
    exact ⟨ha, Exec.ok.inj h⟩

/-- C19. For a full path that `my_stat` reports as a regular file: when it is
`pre ++ "/" ++ suf` with no separator in `suf`, `suf` non-empty and `pre`
unchanged by `trim()`, `qpath` returns true and `to_str()` then gives the
path back; when it is non-empty and has no separator, `qpath` returns true,
`to_str()` gives `"/"` followed by the path, and `exists()` checks that
string with `my_stat`. -/
theorem qpath_to_str_roundtrip (env : Env) (self : Path) (qp : List Char) (st : MY_STAT)
    (hstat : env.my_stat qp = some st) (hreg : env.S_ISREG st.st_mode = true) :
    (∀ pre suf : List Char, qp = pre ++ '/' :: suf → '/' ∉ suf → suf ≠ [] →
      trimStr pre = Exec.ok pre →
      ∃ p', Path.qpath env self qp = Exec.ok (true, p') ∧ p'.to_str = qp) ∧
    ('/' ∉ qp → qp ≠ [] →
      ∃ p', Path.qpath env self qp = Exec.ok (true, p') ∧ p'.to_str = '/' :: qp ∧
        (Path.«exists» env p' = true ↔ (env.my_stat ('/' :: qp)).isSome = true)) := by
  constructor
  · intro pre suf hqp hsuf hne htrim
    subst hqp
    obtain ⟨ha, ht⟩ := trimStr_fixed pre htrim
    rw [qpath_split_eq env self pre suf st hstat hreg hsuf, if_neg ha, ht]
    refine ⟨_, rfl, ?_⟩
    rw [to_str_eq]
    simp only
    rw [if_neg hne]
  · intro hno hne
    rw [qpath_unseparated_eq env self qp st hstat hreg hno]
    refine ⟨_, rfl, ?_, ?_⟩
    · rw [to_str_eq]
      simp only
      rw [if_neg hne]
      rfl
    · have hl : 0 < qp.length := List.length_pos.mpr hne
      have he : (([] : List Char) ++ PATH_SEPARATOR) ++ qp = '/' :: qp := by
        simp [PATH_SEPARATOR, PATH_SEPARATOR_C]
      simp only [Path.«exists», Path.is_qualified_path, he]
      cases env.my_stat ('/' :: qp) <;> simp [hl]

/-- C19 (witness). The path `"/a/b/file.txt"` is given back as it is, and the
bare name `"file.txt"` is rendered as `"/file.txt"`. -/
theorem qpath_to_str_roundtrip_witness :
    (∃ p', Path.qpath (envOfFiles ["/a/b/file.txt".toList, "file.txt".toList]) Path.mk0
          "/a/b/file.txt".toList = Exec.ok (true, p') ∧
        p'.to_str = "/a/b/file.txt".toList) ∧
    (∃ p', Path.qpath (envOfFiles ["/a/b/file.txt".toList, "file.txt".toList]) Path.mk0
          "file.txt".toList = Exec.ok (true, p') ∧
        p'.to_str = '/' :: "file.txt".toList ∧
        (Path.«exists» (envOfFiles ["/a/b/file.txt".toList, "file.txt".toList]) p' = true ↔
          ((envOfFiles ["/a/b/file.txt".toList, "file.txt".toList]).my_stat
            ('/' :: "file.txt".toList)).isSome = true)) :=
  ⟨(qpath_to_str_roundtrip (envOfFiles ["/a/b/file.txt".toList, "file.txt".toList]) Path.mk0
        "/a/b/file.txt".toList { st_mode := 0o100644 } (by decide) (by decide)).1
      "/a/b".toList "file.txt".toList (by decide) (by decide) (by decide) (by decide),
    (qpath_to_str_roundtrip (envOfFiles ["/a/b/file.txt".toList, "file.txt".toList]) Path.mk0
        "file.txt".toList { st_mode := 0o100644 } (by decide) (by decide)).2
      (by decide) (by decide)⟩

/-! ## Climbing with `up()` -/

theorem up_shorter (d f : List Char) (hne : d ≠ []) :
    (Path.up { m_path := d, m_filename := f }).m_path <+: d ∧
      (Path.up { m_path := d, m_filename := f }).m_path.length < d.length := by
  by_cases hmem : PATH_SEPARATOR_C ∈ d
  · obtain ⟨pre, suf, hd, hsuf⟩ := mem_split_last _ d hmem
    subst hd
    rw [up_append_cons pre suf f hsuf]
    exact ⟨⟨PATH_SEPARATOR_C :: suf, rfl⟩, by simp⟩
  · rw [up_no_separator d f hmem]
    exact ⟨⟨d, rfl⟩, by simpa using List.length_pos.mpr hne⟩

theorem up_nil (f : List Char) :
    Path.up { m_path := [], m_filename := f } = { m_path := [], m_filename := f } := by
  exact up_no_separator [] f (by simp)

theorem up_filename (p : Path) : p.up.m_filename = p.m_filename := rfl

theorem up_iterate_nil (n : Nat) :
    ∀ p : Path, p.m_path.length ≤ n → (Path.up^[n] p).m_path = [] := by
  induction n with
  | zero =>
    intro p hp
    exact List.length_eq_zero.mp (Nat.le_zero.mp hp)
  | succ n ih =>
    intro p hp
    rw [Function.iterate_succ_apply]
    apply ih
    by_cases hne : p.m_path = []
    · have e : p.up = p := by
        cases p with
        | mk d f =>
          simp only at hne
          subst hne
          exact up_nil f
      rw [e, hne]
      simp
    · have := (up_shorter p.m_path p.m_filename hne).2
      have e : p = { m_path := p.m_path, m_filename := p.m_filename } := rfl
      rw [e]
      omega

/-- C20. `up()` on a non-empty directory leaves a proper initial segment of
it, strictly shorter; on the empty directory it leaves the empty directory;
so `length(d)` calls of `up()`, or any larger number, reach the empty
directory. -/
theorem up_progress (d f : List Char) :
    (d ≠ [] →
      (Path.up { m_path := d, m_filename := f }).m_path <+: d ∧
        (Path.up { m_path := d, m_filename := f }).m_path.length < d.length) ∧
    Path.up { m_path := [], m_filename := f } = { m_path := [], m_filename := f } ∧
    (∃ k, k ≤ d.length ∧ (Path.up^[k] { m_path := d, m_filename := f }).m_path = []) ∧
    ∀ n, d.length ≤ n → (Path.up^[n] { m_path := d, m_filename := f }).m_path = [] := by
  refine ⟨up_shorter d f, up_nil f, ⟨d.length, le_rfl, ?_⟩, ?_⟩
  · exact up_iterate_nil d.length _ le_rfl
  · intro n hn
    exact up_iterate_nil n _ hn

/-! ## Runs past the read before the first character -/

theorem trimLoopMem_last (stray : Char) (xs : List Char) :
    ∀ fuel : Nat, xs.length + 1 ≤ fuel →
      trimLoopMem stray fuel xs ((xs.length : Int) - 1) =
        if (∀ c ∈ xs, c = PATH_SEPARATOR_C) ∧ stray = PATH_SEPARATOR_C then
          Exec.outOfBounds (-1) 0
        else Exec.ok (stripTrailing xs) := by
  induction xs using List.reverseRecOn with
  | nil =>
    intro fuel hf
    obtain ⟨f, rfl⟩ : ∃ f, fuel = f + 1 := ⟨fuel - 1, by simp at hf; omega⟩
    by_cases hs : stray = PATH_SEPARATOR_C
    · simp [trimLoopMem, hs]
    · simp [trimLoopMem, hs, stripTrailing]
  | append_singleton xs c ih =>
    intro fuel hf
    obtain ⟨f, rfl⟩ : ∃ f, fuel = f + 1 := ⟨fuel - 1, by omega⟩
    have hlen : (xs ++ [c]).length = xs.length + 1 := by simp
    have hit : (((xs ++ [c]).length : Int) - 1) = (xs.length : Int) := by
      rw [hlen]; push_cast; ring
    rw [hit]
    unfold trimLoopMem
    have hb : (0 : Int) ≤ (xs.length : Int) ∧
        (xs.length : Int) < ((xs ++ [c]).length : Int) := by
      rw [hlen]; constructor <;> omega
    rw [if_pos hb]
    have hget : (xs ++ [c])[(xs.length : Int).toNat]? = some c := by
      simp
    rw [hget]
    by_cases hc : c = PATH_SEPARATOR_C
    · have herase : (xs ++ [c]).eraseIdx (xs.length : Int).toNat = xs := by
        simp [List.eraseIdx_append_of_length_le]
      rw [if_pos (by rw [hc]), herase, ih f (by simp at hf; omega), stripTrailing_concat,
        if_pos hc]
      have hall : (∀ x ∈ xs ++ [c], x = PATH_SEPARATOR_C) ↔
          (∀ x ∈ xs, x = PATH_SEPARATOR_C) := by
        constructor
        · intro h x hx
          exact h x (List.mem_append_left _ hx)
        · intro h x hx
          rcases List.mem_append.mp hx with hx | hx
          · exact h x hx
          · rw [List.mem_singleton.mp hx, hc]
      simp only [hall]
    · have hne : ¬ (some c = some PATH_SEPARATOR_C) := by simpa using hc
      rw [if_neg hne, stripTrailing_concat, if_neg hc]
      have hall : ¬ ((∀ x ∈ xs ++ [c], x = PATH_SEPARATOR_C) ∧ stray = PATH_SEPARATOR_C) := by
        intro h; exact hc (h.1 c (by simp))
      rw [if_neg hall]

theorem trimStrMem_eq (stray : Char) (s : List Char) :
    trimStrMem stray s =
      if AllSeparators s ∧ stray = PATH_SEPARATOR_C then Exec.outOfBounds (-1) 0
      else Exec.ok (trimmed s) := by
  unfold trimStrMem trimmed AllSeparators
  by_cases h1 : s.length ≤ 1
  · have : ¬ ((2 ≤ s.length ∧ ∀ c ∈ s, c = PATH_SEPARATOR_C) ∧ stray = PATH_SEPARATOR_C) := by
      omega
    rw [if_pos h1, if_neg this, if_pos h1]
  · rw [if_neg h1, trimLoopMem_last stray s _ le_rfl, if_neg h1]
    by_cases h2 : (∀ c ∈ s, c = PATH_SEPARATOR_C) ∧ stray = PATH_SEPARATOR_C
    · rw [if_pos h2, if_pos ⟨⟨by omega, h2.1⟩, h2.2⟩]
    · rw [if_neg h2, if_neg (fun h => h2 ⟨h.1.2, h.2⟩)]

/-- The loop budget of `trimStrMem` is never exhausted. -/
theorem trimStrMem_ne_outOfFuel (stray : Char) (s : List Char) :
    trimStrMem stray s ≠ Exec.outOfFuel := by
  rw [trimStrMem_eq]
  split <;> simp

/-- A run that `trimStr` completes is the same run of `trimStrMem`, whatever
the byte before the string. -/
theorem trimStrMem_of_trimStr (stray : Char) (s r : List Char) (h : trimStr s = Exec.ok r) :
    trimStrMem stray s = Exec.ok r := by
  rw [trimStr_eq] at h
  by_cases ha : AllSeparators s
  · rw [if_pos ha] at h; cases h
  · rw [if_neg ha] at h
    rw [trimStrMem_eq, if_neg (fun hh => ha hh.1)]
    exact h

/-- A call of `path` that completes is the same call of `pathMem`, whatever
the byte before the string. -/
theorem pathMem_of_path (stray : Char) (self r : Path) (s : List Char)
    (h : self.path s = Exec.ok r) : self.pathMem stray s = Exec.ok r := by
  unfold Path.path Path.trim at h
  unfold Path.pathMem Path.trimMem
  cases ht : trimStr ([] ++ s) with
  | ok d =>
    rw [ht] at h
    have hm := trimStrMem_of_trimStr stray _ _ ht
    simp only at hm ⊢
    rw [hm]
    exact h
  | outOfBounds i n => rw [ht] at h; cases h
  | outOfFuel => rw [ht] at h; cases h

/-- A call of `qpath` that completes is the same call of `qpathMem`, whatever
the byte before the string. -/
theorem qpathMem_of_qpath (stray : Char) (env : Env) (self : Path) (qp : List Char)
    (r : Bool × Path) (h : Path.qpath env self qp = Exec.ok r) :
    Path.qpathMem stray env self qp = Exec.ok r := by
  unfold Path.qpath at h
  unfold Path.qpathMem
  cases hst : env.my_stat qp with
  | none => rw [hst] at h; exact h
  | some st =>
    rw [hst] at h
    simp only at h ⊢
    by_cases hreg : (!env.S_ISREG st.st_mode) = true
    · rw [if_pos hreg] at h ⊢; exact h
    · rw [if_neg hreg] at h ⊢
      cases hr : rfind PATH_SEPARATOR_C qp with
      | none => rw [hr] at h; exact h
      | some idx =>
        rw [hr] at h
        simp only at h ⊢
        cases hp : (self.filename (substr qp (idx + 1) (some (qp.length - idx)))).path
            (substr qp 0 (some idx)) with
        | ok p' =>
          rw [hp] at h
          rw [pathMem_of_path stray _ _ _ hp]
          exact h
        | outOfBounds i n => rw [hp] at h; cases h
        | outOfFuel => rw [hp] at h; cases h

end MysqlClient
